import Mathlib

/-!
# Verification of the `img_dup` core (georancher/img-dup)

A shallow embedding of the `img_dup` library crate: the session facade and
image search from `src/common/src/lib.rs`, together with the image-status
data model, the threaded processing pipeline and the duplicate-clustering
engine.  The crate declares the modules `img`, `compare` and `threaded`
whose sources are not part of this tree; those parts are modelled from the
specification (each such definition says so in its doc comment).  Paths and
directory handles are opaque and modelled as strings; the perceptual hasher
and the filesystem are external collaborators and enter as parameters.
-/

namespace ImgDup

/-- Structural worker for `popCount`: the first argument is fuel (any
value at least the number itself makes the recursion complete). -/
def popCountAux : Nat → Nat → Nat
  | 0, _ => 0
  | _ + 1, 0 => 0
  | fuel + 1, Nat.succ m => Nat.succ m % 2 + popCountAux fuel (Nat.succ m / 2)

/-- Number of set bits of a natural number, viewing it as a bit vector. -/
def popCount (n : Nat) : Nat := popCountAux n n

/-- Modelled from the spec: the external hasher adapter's
`hammingDistance(HashValue, HashValue)` (spec §6) — the count of differing
bits between two equal-width hash values, here encoded as naturals. -/
def hammingDist (a b : Nat) : Nat := popCount (a ^^^ b)

theorem popCountAux_eq_zero : ∀ (fuel n : Nat), n ≤ fuel →
    (popCountAux fuel n = 0 ↔ n = 0)
  | 0, n, h => by
    have : n = 0 := Nat.le_zero.mp h
    subst this; simp [popCountAux]
  | fuel + 1, 0, _ => by simp [popCountAux]
  | fuel + 1, Nat.succ m, h => by
    have hdivle : Nat.succ m / 2 ≤ fuel := by
      have := @Nat.div_lt_self (Nat.succ m) 2 (Nat.succ_pos m) (by decide)
      omega
    have ih := popCountAux_eq_zero fuel (Nat.succ m / 2) hdivle
    rw [popCountAux]
    constructor
    · intro h0
      obtain ⟨hmod, hrec⟩ := Nat.add_eq_zero.mp h0
      have hdiv := ih.mp hrec
      omega
    · intro h0; exact absurd h0 (Nat.succ_ne_zero m)

theorem popCount_eq_zero (n : Nat) : popCount n = 0 ↔ n = 0 :=
  popCountAux_eq_zero n n (Nat.le_refl n)

theorem hammingDist_eq_zero (a b : Nat) : hammingDist a b = 0 ↔ a = b := by
  rw [hammingDist, popCount_eq_zero]
  exact Nat.xor_eq_zero

theorem hammingDist_comm (a b : Nat) : hammingDist a b = hammingDist b a := by
  rw [hammingDist, hammingDist, Nat.xor_comm]

theorem hammingDist_self (a : Nat) : hammingDist a a = 0 :=
  (hammingDist_eq_zero a a).mpr rfl

/-- The hash variants of the external `img_hash` crate (`HashType`). -/
inductive HashType where
  | Mean
  | Gradient
  | DoubleGradient
  | DCT
deriving DecidableEq, Repr

/-- Modelled from the spec: the `Image` record of the missing `img` module —
"identified by its source path (unique key); holds the computed hash value
once known" (spec §3). -/
structure Image where
  path : String
  hash : Nat
deriving DecidableEq, Repr

/-- Modelled from the spec: `ImgStatus` of the missing `img` module — the
tagged variant over {Unhashed(path), Hashed(Image), Failed(path, reason)}
(spec §3). -/
inductive ImgStatus where
  | Unhashed (path : String)
  | Hashed (img : Image)
  | Failed (path : String) (reason : String)
deriving DecidableEq, Repr

/-- The input path a status entry accounts for. -/
def ImgStatus.path : ImgStatus → String
  | .Unhashed p => p
  | .Hashed img => img.path
  | .Failed p _ => p

/-- Whether a status entry is still in the `Unhashed` state. -/
def ImgStatus.isUnhashed : ImgStatus → Bool
  | .Unhashed _ => true
  | _ => false

/-- The `HashSettings` struct of the missing `img` module, with the two fields the
`SessionBuilder` in `lib.rs` recombines into it: `hash_size` and
`hash_type`. -/
structure HashSettings where
  hash_size : Nat
  hash_type : HashType
deriving DecidableEq, Repr

/-- The external hasher adapter (decode + hash a file, or fail): given the
hash settings and a path it yields the hash value or a failure reason.
Hashing is an external effect, so every definition of the pipeline is
parametrised by it. -/
def HashFn : Type := HashSettings → String → Except String Nat

/-- Modelled from the spec: `ImgStatus::hash` of the missing `img` module —
the per-unit work of spec §4.1: "for each path, invoke the hasher adapter.
On success, produce Hashed(Image); on any decode/IO failure, produce
Failed(path, reason)".  The transition is one-way: a status that is already
`Hashed` or `Failed` is left unchanged. -/
def ImgStatus.hash (hf : HashFn) (settings : HashSettings) : ImgStatus → ImgStatus
  | .Unhashed p =>
    match hf settings p with
    | .ok h => .Hashed ⟨p, h⟩
    | .error e => .Failed p e
  | s => s

/-- Modelled from the spec: `ImgResults` of the missing `img` module — the
ResultSet, an "ordered sequence of ImageStatus, one entry per input path, in
the same order as the input path list" (spec §3). -/
structure ImgResults where
  statuses : List ImgStatus
deriving DecidableEq, Repr

/-- The constructor `ImgResults::from_statuses`. -/
def ImgResults.from_statuses (l : List ImgStatus) : ImgResults := ⟨l⟩

/-! ## Session facade (`SessionBuilder` in `lib.rs`) -/

/-- Source: `pub const DEAFULT_HASH_SIZE: u32 = 16;` (the source spells it that way). -/
def DEAFULT_HASH_SIZE : Nat := 16

/-- Source: `pub const DEFAULT_HASH_TYPE: HashType = HashType::Gradient;` -/
def DEFAULT_HASH_TYPE : HashType := HashType.Gradient

/-- Source: `pub const DEFAULT_THRESHOLD: u32 = 2;` -/
def DEFAULT_THRESHOLD : Nat := 2

/-- The builder struct for bootstrapping an `img_dup` session.  Its fields
are exactly those of the source: the image paths, the hash size and the
hash type.  (It carries no duplicate threshold.) -/
structure SessionBuilder where
  images : List String
  hash_size : Nat
  hash_type : HashType
deriving DecidableEq, Repr

/-- The constructor `SessionBuilder::from_images`: the paths plus the `DEFAULT_*` constants
for the other fields. -/
def SessionBuilder.from_images (images : List String) : SessionBuilder :=
  { images := images
    hash_size := DEAFULT_HASH_SIZE
    hash_type := DEFAULT_HASH_TYPE }

/-- The method `SessionBuilder::recombine`: split the builder into the hash settings
and the path list. -/
def SessionBuilder.recombine (b : SessionBuilder) : HashSettings × List String :=
  (⟨b.hash_size, b.hash_type⟩, b.images)

/-- The method `SessionBuilder::process_local`: wrap every path as `Unhashed`, hash
each status in place in input order, and collect the statuses. -/
def SessionBuilder.process_local (hf : HashFn) (b : SessionBuilder) : ImgResults :=
  let sp := b.recombine
  ImgResults.from_statuses
    ((sp.2.map ImgStatus.Unhashed).map (ImgStatus.hash hf sp.1))

/-! ## Threaded session (modelled from the spec)

The module `threaded` is declared by `lib.rs` but its source is not in the
tree; the pipeline below is modelled from spec §4.1 and §7: resolve the
thread count (zero is a configuration error), split the index-tagged path
list into contiguous chunks, let each worker map the per-unit work over its
chunk, deliver everything to the collector, and reconstruct the ResultSet
strictly by original index. -/

/-- Modelled from the spec: the ConfigurationError taxonomy of §7 —
"explicit thread count of zero requested, or auto-detected parallelism
resolves to zero". -/
inductive ConfigError where
  | explicitZeroThreads
  | detectedZeroCpus
deriving DecidableEq, Repr

/-- Modelled from the spec: thread count resolution (spec §4.1) — an
explicit zero fails immediately; `none` resolves to the detected CPU count,
which must be positive. -/
def resolveThreads (threads : Option Nat) (numCpus : Nat) : Except ConfigError Nat :=
  match threads with
  | some 0 => .error .explicitZeroThreads
  | some (Nat.succ k) => .ok (Nat.succ k)
  | none => if numCpus = 0 then .error .detectedZeroCpus else .ok numCpus

/-- Structural worker for `chunksOf`: the first argument is fuel (any
value at least the list's length makes the recursion complete). -/
def chunksOfAux (c : Nat) : Nat → List α → List (List α)
  | _, [] => []
  | 0, _ :: _ => []
  | fuel + 1, x :: xs => (x :: xs.take (c - 1)) :: chunksOfAux c fuel (xs.drop (c - 1))

/-- Contiguous chunks of size `c` (a chunk size of zero degenerates to
singleton chunks, so the traversal always makes progress). -/
def chunksOf (c : Nat) (l : List α) : List (List α) := chunksOfAux c l.length l

/-- The chunk size used to split `n` units across `k` workers (ceiling
division, the deterministic contiguous-chunk partitioning of spec §4.1). -/
def chunkSize (n k : Nat) : Nat := (n + k - 1) / k

/-- Modelled from the spec: one worker's unit of work (spec §4.1) — hash
the path, keeping the unit's original index in the input list. -/
def workUnit (hf : HashFn) (settings : HashSettings) (u : Nat × String) :
    Nat × ImgStatus :=
  (u.1, ImgStatus.hash hf settings (ImgStatus.Unhashed u.2))

/-- Modelled from the spec: the collector (spec §4.1) — reconstruct the
final ordering strictly by original index from the delivered tagged
results. -/
def collectByIndex (n : Nat) (delivered : List (Nat × ImgStatus)) : List ImgStatus :=
  (List.range n).filterMap
    (fun i => (delivered.find? (fun e => e.1 == i)).map Prod.snd)

/-- Modelled from the spec: `ThreadedSession::process_multithread` with the
thread count already resolved — partition the tagged paths into one chunk
per worker, map the per-unit work in every worker, deliver all tagged
results to the collector and rebuild input order by index. -/
def threadedRun (hf : HashFn) (k : Nat) (settings : HashSettings)
    (images : List String) : ImgResults :=
  let tagged := images.enum
  let chunks := chunksOf (chunkSize images.length k) tagged
  let delivered := (chunks.map (List.map (workUnit hf settings))).flatten
  ImgResults.from_statuses (collectByIndex images.length delivered)

/-- The method `SessionBuilder::process_multithread`: recombine and delegate to the
threaded session.  The thread-count failure of spec §4.1/§7 (documented in
the source as a panic when `threads == Some(0)`) surfaces as a
`ConfigError` of the whole operation. -/
def SessionBuilder.process_multithread (hf : HashFn) (b : SessionBuilder)
    (threads : Option Nat) (numCpus : Nat) : Except ConfigError ImgResults :=
  let sp := b.recombine
  match resolveThreads threads numCpus with
  | .error e => .error e
  | .ok k => .ok (threadedRun hf k sp.1 sp.2)

/-! ## Duplicate clustering (modelled from the spec)

The module `compare` is declared by `lib.rs` but its source is not in the
tree; `UniqueImage` and `ImageManager` below are modelled from spec §4.2:
scan existing groups in creation order, append the image to the first group
whose representative is within the duplicate threshold, and otherwise
create a new group with the image as its own representative. -/

/-- Modelled from the spec: a duplicate group — a representative image
plus the ordered members appended to it (spec §3, `DuplicateGroup`). -/
structure UniqueImage where
  img : Image
  similars : List Image
deriving DecidableEq, Repr

/-- All images accounted for by a group: its representative and its
appended members. -/
def UniqueImage.allImages (u : UniqueImage) : List Image :=
  u.img :: u.similars

/-- Modelled from the spec: the clustering engine's state — the duplicate
threshold and the groups in creation order (spec §4.2). -/
structure ImageManager where
  threshold : Nat
  uniques : List UniqueImage
deriving DecidableEq, Repr

/-- A fresh clustering engine with no groups. -/
def ImageManager.new (threshold : Nat) : ImageManager := ⟨threshold, []⟩

/-- Modelled from the spec: append `image` to the first group (in creation
order) whose representative is within `t` of it; `none` when no group
matches (spec §4.2, first-match-wins). -/
def addToFirst (t : Nat) (image : Image) : List UniqueImage → Option (List UniqueImage)
  | [] => none
  | u :: us =>
    if hammingDist image.hash u.img.hash ≤ t then
      some ({ u with similars := u.similars ++ [image] } :: us)
    else
      (addToFirst t image us).map (u :: ·)

/-- Modelled from the spec: `ImageManager::add` (spec §4.2) — first-match
by creation order, else a new group appended at the end. -/
def ImageManager.add (m : ImageManager) (image : Image) : ImageManager :=
  match addToFirst m.threshold image m.uniques with
  | some us => { m with uniques := us }
  | none => { m with uniques := m.uniques ++ [⟨image, []⟩] }

/-- Modelled from the spec: `ImageManager::add_all` — `add` each image in
input order. -/
def ImageManager.add_all (m : ImageManager) (images : List Image) : ImageManager :=
  images.foldl ImageManager.add m

/-- Modelled from the spec: `ImageManager::into_vec` — finalize into the
groups in creation order. -/
def ImageManager.into_vec (m : ImageManager) : List UniqueImage := m.uniques

/-- The free function `find_uniques` from `lib.rs`: a fresh manager, `add_all`, `into_vec`. -/
def find_uniques (images : List Image) (threshold : Nat) : List UniqueImage :=
  ((ImageManager.new threshold).add_all images).into_vec

/-! ## Image search (`ImageSearch` in `lib.rs`) -/

/-- A filesystem path as the search sees it: an opaque identity plus the
result of `extension().and_then(|s| s.to_str())`. -/
structure FsPath where
  name : String
  ext : Option String
deriving DecidableEq, Repr

/-- A directory entry yielded by `read_dir`/`walk_dir`. -/
structure DirEntryT where
  path : FsPath
deriving DecidableEq, Repr

/-- An I/O error value. -/
structure IOErr where
  msg : String
deriving DecidableEq, Repr

/-- A directory listing as the traversal produces it: either the root
fails to open, or a stream of per-entry results, each an entry or an I/O
error.  This is the input `search` consumes from the external filesystem
(`fs::read_dir` when not recursive, `fs::walk_dir` when recursive). -/
def Listing : Type := Except IOErr (List (Except IOErr DirEntryT))

/-- Source: `pub static DEFAULT_EXTS: &[&str] = &["jpg", "png", "gif"];` -/
def DEFAULT_EXTS : List String := ["jpg", "png", "gif"]

/-- The search builder from `lib.rs`: base directory (opaque), recursive
flag, extension list. -/
structure ImageSearch where
  dir : String
  recursive : Bool
  exts : List String
deriving DecidableEq, Repr

/-- The constructor `ImageSearch::with_dir`: defaults `recursive := false` and a copy of
`DEFAULT_EXTS`. -/
def ImageSearch.with_dir (dir : String) : ImageSearch :=
  ⟨dir, false, DEFAULT_EXTS⟩

/-- The inner `do_filter` of `ImageSearch::search`: drop errored entries
(`res.ok()`), take each entry's path, and keep those whose extension is in
`exts` (`unwrap_or(false)` when there is no extension). -/
def do_filter (entries : List (Except IOErr DirEntryT)) (exts : List String) :
    List FsPath :=
  ((entries.filterMap Except.toOption).map DirEntryT.path).filter
    (fun p => (p.ext.map (fun e => exts.contains e)).getD false)

/-- The method `ImageSearch::search`: `try!` on opening the root listing — an error
there propagates to the caller — then `do_filter` over the entry stream. -/
def ImageSearch.search (s : ImageSearch) (listing : Listing) :
    Except IOErr (List FsPath) :=
  match listing with
  | .error e => .error e
  | .ok entries => .ok (do_filter entries s.exts)

/-! ## Concrete instances used by witnesses and counterexamples -/

/-- A concrete hasher: `a.png` and `c.png` hash to 5, `ok.png` to 7,
anything else fails to decode. -/
def sampleHashFn : HashFn := fun _ p =>
  if p = "a.png" ∨ p = "c.png" then Except.ok 5
  else if p = "ok.png" then Except.ok 7
  else Except.error "decode failed"

/-- A concrete image with hash `0b00`. -/
def imgA : Image := ⟨"a.png", 0⟩

/-- A concrete image with hash `0b01`. -/
def imgB : Image := ⟨"b.png", 1⟩

/-- A concrete image with hash `0b11`. -/
def imgC : Image := ⟨"c.png", 3⟩

/-- A concrete image with hash `0b1100`, far from the others. -/
def imgD : Image := ⟨"d.png", 12⟩

/-- A concrete image that is a bit-identical duplicate of `imgA`. -/
def imgA2 : Image := ⟨"a2.png", 0⟩

/-! ## Clustering lemmas -/

theorem addToFirst_eq_none_iff (t : Nat) (image : Image) :
    ∀ gs : List UniqueImage, addToFirst t image gs = none ↔
      ∀ u ∈ gs, ¬ hammingDist image.hash u.img.hash ≤ t := by
  intro gs
  induction gs with
  | nil => simp [addToFirst]
  | cons u us ih =>
    by_cases h : hammingDist image.hash u.img.hash ≤ t
    · simp [addToFirst, h]
    · simp only [addToFirst, if_neg h, Option.map_eq_none', ih,
        List.forall_mem_cons]
      exact ⟨fun hall => ⟨h, hall⟩, fun hall => hall.2⟩

theorem addToFirst_first_match (t : Nat) (image : Image) :
    ∀ (gs : List UniqueImage) (i : Nat) (u : UniqueImage),
      gs[i]? = some u →
      hammingDist image.hash u.img.hash ≤ t →
      (∀ v ∈ gs.take i, ¬ hammingDist image.hash v.img.hash ≤ t) →
      addToFirst t image gs =
        some (gs.take i ++
          ({ u with similars := u.similars ++ [image] } :: gs.drop (i + 1)))
  | [], i, u, hget, _, _ => by simp at hget
  | v :: vs, 0, u, hget, hdist, _ => by
    simp only [List.getElem?_cons_zero, Option.some.injEq] at hget
    subst hget
    simp [addToFirst, if_pos hdist]
  | v :: vs, i + 1, u, hget, hdist, hbefore => by
    simp only [List.getElem?_cons_succ] at hget
    have hv : ¬ hammingDist image.hash v.img.hash ≤ t :=
      hbefore v (by simp [List.take_succ_cons])
    have hrest : ∀ w ∈ vs.take i, ¬ hammingDist image.hash w.img.hash ≤ t := by
      intro w hw
      exact hbefore w (by simp [List.take_succ_cons, hw])
    have ih := addToFirst_first_match t image vs i u hget hdist hrest
    simp [addToFirst, if_neg hv, ih, List.take_succ_cons, List.drop_succ_cons]

/-- The operation `add` never changes the threshold. -/
theorem add_threshold (m : ImageManager) (image : Image) :
    (m.add image).threshold = m.threshold := by
  unfold ImageManager.add
  cases addToFirst m.threshold image m.uniques <;> rfl

/-- The operation `addToFirst` never changes the sequence of representative hashes. -/
theorem addToFirst_rep_hashes (t : Nat) (image : Image) :
    ∀ (gs gs' : List UniqueImage), addToFirst t image gs = some gs' →
      gs'.map (fun u => u.img.hash) = gs.map (fun u => u.img.hash)
  | [], _, h => by simp [addToFirst] at h
  | v :: vs, gs', h => by
    by_cases hv : hammingDist image.hash v.img.hash ≤ t
    · simp only [addToFirst, if_pos hv, Option.some.injEq] at h
      subst h
      simp
    · simp only [addToFirst, if_neg hv, Option.map_eq_some'] at h
      obtain ⟨rest, hrest, rfl⟩ := h
      simp [addToFirst_rep_hashes t image vs rest hrest]

/-- The images accounted for after a successful `addToFirst` are a
permutation of the new image together with the previous ones. -/
theorem addToFirst_flatten_perm (t : Nat) (image : Image) :
    ∀ (gs gs' : List UniqueImage), addToFirst t image gs = some gs' →
      ((gs'.map UniqueImage.allImages).flatten).Perm
        (image :: (gs.map UniqueImage.allImages).flatten)
  | [], _, h => by simp [addToFirst] at h
  | v :: vs, gs', h => by
    by_cases hv : hammingDist image.hash v.img.hash ≤ t
    · simp only [addToFirst, if_pos hv, Option.some.injEq] at h
      subst h
      simp only [List.map_cons, List.flatten_cons, UniqueImage.allImages]
      have e : (v.img :: (v.similars ++ [image])) ++ (vs.map UniqueImage.allImages).flatten
          = (v.img :: v.similars) ++ (image :: (vs.map UniqueImage.allImages).flatten) := by
        simp
      rw [e]
      exact List.perm_middle
    · simp only [addToFirst, if_neg hv, Option.map_eq_some'] at h
      obtain ⟨rest, hrest, rfl⟩ := h
      simp only [List.map_cons, List.flatten_cons]
      refine List.Perm.trans
        (List.Perm.append_left _ (addToFirst_flatten_perm t image vs rest hrest))
        List.perm_middle

/-- One `add` step: the accounted images are a permutation of the new image
together with the previous ones. -/
theorem add_flatten_perm (m : ImageManager) (image : Image) :
    (((m.add image).uniques.map UniqueImage.allImages).flatten).Perm
      (image :: (m.uniques.map UniqueImage.allImages).flatten) := by
  unfold ImageManager.add
  cases h : addToFirst m.threshold image m.uniques with
  | some gs' => exact addToFirst_flatten_perm m.threshold image m.uniques gs' h
  | none =>
    simp only [UniqueImage.allImages, List.map_append, List.flatten_append,
      List.map_cons, List.map_nil, List.flatten_cons, List.flatten_nil,
      List.append_nil]
    exact List.perm_append_comm

/-- After `add_all`, the accounted images are a permutation of the added images
followed by the previously accounted ones. -/
theorem add_all_flatten_perm :
    ∀ (images : List Image) (m : ImageManager),
      (((m.add_all images).uniques.map UniqueImage.allImages).flatten).Perm
        (images ++ (m.uniques.map UniqueImage.allImages).flatten)
  | [], m => by simp [ImageManager.add_all]
  | i :: is, m => by
    have step : (m.add_all (i :: is)) = (m.add i).add_all is := rfl
    rw [step]
    refine List.Perm.trans (add_all_flatten_perm is (m.add i)) ?_
    refine List.Perm.trans (List.Perm.append_left is (add_flatten_perm m i)) ?_
    exact List.perm_middle

/-- Every group of the state is within-threshold: every image a group
accounts for is within `t` of that group's representative. -/
def Bounded (t : Nat) (gs : List UniqueImage) : Prop :=
  ∀ u ∈ gs, ∀ x ∈ u.allImages, hammingDist x.hash u.img.hash ≤ t

theorem addToFirst_bounded (t : Nat) (image : Image) :
    ∀ (gs gs' : List UniqueImage), addToFirst t image gs = some gs' →
      Bounded t gs → Bounded t gs'
  | [], _, h, _ => by simp [addToFirst] at h
  | v :: vs, gs', h, hb => by
    by_cases hv : hammingDist image.hash v.img.hash ≤ t
    · simp only [addToFirst, if_pos hv, Option.some.injEq] at h
      subst h
      intro u hu x hx
      rcases List.mem_cons.mp hu with rfl | hu'
      · simp only [UniqueImage.allImages, List.mem_cons, List.mem_append,
          List.not_mem_nil, or_false] at hx
        rcases hx with rfl | hx' | rfl
        · simp [hammingDist_self]
        · exact hb v (List.mem_cons_self v vs) x
            (List.mem_cons_of_mem _ hx')
        · exact hv
      · exact hb u (List.mem_cons_of_mem v hu') x hx
    · simp only [addToFirst, if_neg hv, Option.map_eq_some'] at h
      obtain ⟨rest, hrest, rfl⟩ := h
      intro u hu x hx
      rcases List.mem_cons.mp hu with rfl | hu'
      · exact hb u (List.mem_cons_self u vs) x hx
      · exact addToFirst_bounded t image vs rest hrest
          (fun w hw => hb w (List.mem_cons_of_mem v hw)) u hu' x hx

theorem add_bounded (m : ImageManager) (image : Image)
    (hb : Bounded m.threshold m.uniques) :
    Bounded m.threshold (m.add image).uniques := by
  unfold ImageManager.add
  cases h : addToFirst m.threshold image m.uniques with
  | some gs' => exact addToFirst_bounded m.threshold image m.uniques gs' h hb
  | none =>
    intro u hu x hx
    rcases List.mem_append.mp hu with hu' | hu'
    · exact hb u hu' x hx
    · simp only [List.mem_singleton] at hu'
      subst hu'
      simp only [UniqueImage.allImages, List.mem_cons, List.not_mem_nil,
        or_false] at hx
      subst hx
      simp [hammingDist_self]

theorem add_all_bounded :
    ∀ (images : List Image) (m : ImageManager),
      Bounded m.threshold m.uniques →
      Bounded m.threshold ((m.add_all images).uniques)
  | [], m, hb => hb
  | i :: is, m, hb => by
    have step : (m.add_all (i :: is)) = (m.add i).add_all is := rfl
    rw [step]
    have hth : (m.add i).threshold = m.threshold := add_threshold m i
    have := add_all_bounded is (m.add i) (by rw [hth]; exact add_bounded m i hb)
    rwa [hth] at this

/-- The two partition facts for `find_uniques`, shared by the claim
theorems: the groups' images are a permutation of the input, and every
accounted image is within threshold of its group's representative. -/
theorem find_uniques_perm (images : List Image) (t : Nat) :
    (((find_uniques images t).map UniqueImage.allImages).flatten).Perm images := by
  have h := add_all_flatten_perm images (ImageManager.new t)
  simpa [find_uniques, ImageManager.new, ImageManager.into_vec] using h

theorem find_uniques_bounded (images : List Image) (t : Nat) :
    Bounded t (find_uniques images t) := by
  have h := add_all_bounded images (ImageManager.new t)
    (by intro u hu; simp [ImageManager.new] at hu)
  simpa [find_uniques, ImageManager.new, ImageManager.into_vec] using h

theorem hash_unhashed_path (hf : HashFn) (s : HashSettings) (p : String) :
    (ImgStatus.hash hf s (ImgStatus.Unhashed p)).path = p := by
  cases h : hf s p <;> simp [ImgStatus.hash, h, ImgStatus.path]

theorem hash_unhashed_not_unhashed (hf : HashFn) (s : HashSettings) (p : String) :
    (ImgStatus.hash hf s (ImgStatus.Unhashed p)).isUnhashed = false := by
  cases h : hf s p <;> simp [ImgStatus.hash, h, ImgStatus.isUnhashed]

theorem process_local_statuses (hf : HashFn) (b : SessionBuilder) :
    (b.process_local hf).statuses =
      b.images.map (fun p => ImgStatus.hash hf ⟨b.hash_size, b.hash_type⟩ (ImgStatus.Unhashed p)) := by
  simp [SessionBuilder.process_local, SessionBuilder.recombine,
    ImgResults.from_statuses, List.map_map, Function.comp_def]

/-! ## Claim theorems -/

/-- C2: for every input path list of length n, the ResultSet of a local
processing session has exactly n entries, one per input path, and the
entries appear in the same order as the input path list (each entry's path
is the corresponding input path). -/
theorem resultset_one_entry_per_path_in_order (hf : HashFn) (b : SessionBuilder) :
    (b.process_local hf).statuses.length = b.images.length ∧
    (b.process_local hf).statuses.map ImgStatus.path = b.images := by
  rw [process_local_statuses]
  refine ⟨by simp, ?_⟩
  rw [List.map_map]
  have : ∀ p ∈ b.images,
      (ImgStatus.path ∘ fun p => ImgStatus.hash hf ⟨b.hash_size, b.hash_type⟩ (ImgStatus.Unhashed p)) p
        = id p := by
    intro p _
    simp [Function.comp_def, hash_unhashed_path]
  rw [List.map_congr_left this, List.map_id]

/-- C8: after a local processing session completes, no entry of the
ResultSet is still `Unhashed` — every entry is `Hashed` or `Failed`, for
every input path list including the empty one. -/
theorem resultset_never_unhashed (hf : HashFn) (b : SessionBuilder) :
    ∀ st ∈ (b.process_local hf).statuses, st.isUnhashed = false := by
  intro st hst
  rw [process_local_statuses] at hst
  obtain ⟨p, _, rfl⟩ := List.mem_map.mp hst
  exact hash_unhashed_not_unhashed hf ⟨b.hash_size, b.hash_type⟩ p

/-- Witness for C8 at a concrete session: the failed entry for the
undecodable `bad.jpg` is in the ResultSet and is not `Unhashed`. -/
theorem resultset_never_unhashed_witness :
    ImgStatus.Failed "bad.jpg" "decode failed"
        ∈ ((SessionBuilder.from_images ["ok.png", "bad.jpg"]).process_local sampleHashFn).statuses ∧
      (ImgStatus.Failed "bad.jpg" "decode failed").isUnhashed = false :=
  ⟨by decide,
   resultset_never_unhashed sampleHashFn (SessionBuilder.from_images ["ok.png", "bad.jpg"])
     (ImgStatus.Failed "bad.jpg" "decode failed") (by decide)⟩

/-- C5: requesting an explicit thread count of zero fails with a
configuration error of the whole operation — for every hasher, path list
and detected CPU count, so before any hashing work can depend on the
inputs, and no per-image data is produced. -/
theorem zero_threads_is_config_error (hf : HashFn) (b : SessionBuilder) (ncpus : Nat) :
    b.process_multithread hf (some 0) ncpus = Except.error ConfigError.explicitZeroThreads := rfl

/-- C9 counterexample: what `from_images` bundles is exactly the hash size
and hash variant (there is no threshold among the recombined settings), and
no default duplicate threshold is in effect for a run — clustering the same
images at caller-chosen threshold 0 differs from clustering at
`DEFAULT_THRESHOLD`, so the claim that `duplicate_threshold = 2` is bundled
and in effect when the caller sets nothing is false. -/
theorem session_bundles_no_threshold :
    (SessionBuilder.from_images ["x.png"]).recombine =
      ({ hash_size := 16, hash_type := HashType.Gradient }, ["x.png"]) ∧
    ¬ (∀ t : Nat, find_uniques [imgA, imgB] t = find_uniques [imgA, imgB] DEFAULT_THRESHOLD) := by
  refine ⟨rfl, fun h => absurd (h 0) (by decide)⟩

/-- C9 (amended): `from_images` bundles `hash_size = 16` and
`hash_type = Gradient` as the defaults in effect for a run;
`DEFAULT_THRESHOLD = 2` exists as a documented constant but is not part of
the bundled settings — `find_uniques` takes the threshold as an explicit
argument. -/
theorem from_images_defaults (ps : List String) :
    (SessionBuilder.from_images ps).hash_size = 16 ∧
    (SessionBuilder.from_images ps).hash_type = HashType.Gradient ∧
    (SessionBuilder.from_images ps).recombine =
      ({ hash_size := 16, hash_type := HashType.Gradient }, ps) ∧
    DEFAULT_THRESHOLD = 2 :=
  ⟨rfl, rfl, rfl, rfl⟩

/-- C10 counterexample: an I/O error opening the root directory listing is
surfaced to the caller (`try!` in `search`), so image discovery does not
return a best-effort path list for every traversal: at this concrete
failing root listing there is no returned path list at all. -/
theorem search_root_error_surfaced :
    ¬ ∃ ps, (ImageSearch.with_dir "root").search
        (Except.error ⟨"permission denied"⟩) = Except.ok ps := by
  rintro ⟨ps, h⟩
  exact Except.noConfusion h

/-- C10 (amended): image discovery silently skips I/O errors on individual
directory entries during traversal and returns a best-effort list of the
remaining matching paths, but an I/O error opening the root listing itself
is returned to the caller as an error. -/
theorem search_skips_entry_errors (s : ImageSearch)
    (entries l1 l2 : List (Except IOErr DirEntryT)) (e e0 : IOErr) :
    s.search (Except.ok entries) = Except.ok (do_filter entries s.exts) ∧
    do_filter (l1 ++ Except.error e :: l2) s.exts = do_filter (l1 ++ l2) s.exts ∧
    s.search (Except.error e0) = Except.error e0 := by
  refine ⟨rfl, ?_, rfl⟩
  simp [do_filter, List.filterMap_append, Except.toOption]

/-! ## Threshold-zero invariants for clustering -/

/-- The representative hashes of the state's groups, in creation order. -/
def repHashes (gs : List UniqueImage) : List Nat :=
  gs.map (fun u => u.img.hash)

theorem add_rep_hashes_zero (m : ImageManager) (image : Image)
    (hm : m.threshold = 0)
    (hnd : (repHashes m.uniques).Nodup) :
    (repHashes (m.add image).uniques).Nodup := by
  unfold ImageManager.add
  cases h : addToFirst m.threshold image m.uniques with
  | some gs' =>
    simpa [repHashes, addToFirst_rep_hashes m.threshold image m.uniques gs' h]
      using hnd
  | none =>
    have hno := (addToFirst_eq_none_iff m.threshold image m.uniques).mp h
    simp only [repHashes, List.map_append, List.map_cons, List.map_nil]
    rw [List.nodup_append]
    refine ⟨hnd, List.nodup_singleton _, ?_⟩
    intro a ha hb
    simp only [List.mem_singleton] at hb
    subst hb
    obtain ⟨u, hu, hueq⟩ := List.mem_map.mp ha
    have hne := hno u hu
    rw [hm, Nat.le_zero, hammingDist_eq_zero] at hne
    exact hne hueq.symm

theorem add_all_rep_hashes_zero :
    ∀ (images : List Image) (m : ImageManager), m.threshold = 0 →
      (repHashes m.uniques).Nodup →
      (repHashes (m.add_all images).uniques).Nodup
  | [], _, _, hnd => hnd
  | i :: is, m, hm, hnd => by
    have step : (m.add_all (i :: is)) = (m.add i).add_all is := rfl
    rw [step]
    exact add_all_rep_hashes_zero is (m.add i)
      (by rw [add_threshold, hm]) (add_rep_hashes_zero m i hm hnd)

theorem find_uniques_zero_rep_nodup (images : List Image) :
    (repHashes (find_uniques images 0)).Nodup := by
  have h := add_all_rep_hashes_zero images (ImageManager.new 0) rfl
    (by simp [ImageManager.new, repHashes])
  simpa [find_uniques, ImageManager.into_vec] using h

/-- At threshold 0 every group is hash-homogeneous: each image a group
accounts for has exactly its representative's hash. -/
theorem find_uniques_zero_homog (images : List Image) (u : UniqueImage)
    (hu : u ∈ find_uniques images 0) (x : Image) (hx : x ∈ u.allImages) :
    x.hash = u.img.hash := by
  have h := find_uniques_bounded images 0 u hu x hx
  rwa [Nat.le_zero, hammingDist_eq_zero] at h

/-! ## Remaining claim theorems on clustering -/

/-- C3: `add` is first-match-wins by creation order: if no group's
representative is within threshold of the image, a new group holding just
the image is appended; and if `i` is the first position whose group's
representative is within threshold, the image is appended to that group's
members and every other group is left unchanged. -/
theorem clustering_add_first_match (m : ImageManager) (image : Image) :
    ((∀ u ∈ m.uniques, ¬ hammingDist image.hash u.img.hash ≤ m.threshold) →
      (m.add image).uniques = m.uniques ++ [⟨image, []⟩]) ∧
    (∀ (i : Nat) (u : UniqueImage),
      m.uniques[i]? = some u →
      hammingDist image.hash u.img.hash ≤ m.threshold →
      (∀ v ∈ m.uniques.take i, ¬ hammingDist image.hash v.img.hash ≤ m.threshold) →
      (m.add image).uniques =
        m.uniques.take i ++
          ({ u with similars := u.similars ++ [image] } :: m.uniques.drop (i + 1))) := by
  constructor
  · intro hall
    unfold ImageManager.add
    rw [(addToFirst_eq_none_iff m.threshold image m.uniques).mpr hall]
  · intro i u hget hdist hbefore
    unfold ImageManager.add
    rw [addToFirst_first_match m.threshold image m.uniques i u hget hdist hbefore]

/-- Witness for C3 at a concrete state: with threshold 1 and groups
anchored at `imgD` (far) then `imgA` (near), adding `imgB` appends it to
the group at position 1 and leaves the group at position 0 unchanged. -/
theorem clustering_add_first_match_witness :
    (⟨1, [⟨imgD, []⟩, ⟨imgA, []⟩]⟩ : ImageManager).uniques[1]? = some ⟨imgA, []⟩ ∧
    hammingDist imgB.hash imgA.hash ≤ 1 ∧
    (∀ v ∈ [(⟨imgD, []⟩ : UniqueImage)], ¬ hammingDist imgB.hash v.img.hash ≤ 1) ∧
    ((⟨1, [⟨imgD, []⟩, ⟨imgA, []⟩]⟩ : ImageManager).add imgB).uniques =
      [⟨imgD, []⟩, ⟨imgA, [imgB]⟩] :=
  ⟨by decide, by decide, by decide,
    (clustering_add_first_match ⟨1, [⟨imgD, []⟩, ⟨imgA, []⟩]⟩ imgB).2 1 ⟨imgA, []⟩
      (by decide) (by decide) (by decide)⟩

/-- C6: the groups returned by `find_uniques` partition the added images —
the concatenation of all groups' accounted images is a permutation of the
input (so each added image lands in exactly one group and nothing else
appears) — and every image a group accounts for is within the duplicate
threshold of that group's representative. -/
theorem clustering_partitions_input (images : List Image) (t : Nat) :
    (((find_uniques images t).map UniqueImage.allImages).flatten).Perm images ∧
    ∀ u ∈ find_uniques images t, ∀ x ∈ u.allImages,
      hammingDist x.hash u.img.hash ≤ t :=
  ⟨find_uniques_perm images t, find_uniques_bounded images t⟩

/-- Witness for C6 at a concrete run: clustering `[imgA, imgB, imgC]` at
threshold 1 accounts for exactly the three inputs, and the member `imgB`
of the group anchored at `imgA` is within threshold of it. -/
theorem clustering_partitions_input_witness :
    ((((find_uniques [imgA, imgB, imgC] 1).map UniqueImage.allImages).flatten).Perm
        [imgA, imgB, imgC]) ∧
      ((⟨imgA, [imgB]⟩ : UniqueImage) ∈ find_uniques [imgA, imgB, imgC] 1 ∧
        imgB ∈ (⟨imgA, [imgB]⟩ : UniqueImage).allImages ∧
        hammingDist imgB.hash imgA.hash ≤ 1) :=
  ⟨(clustering_partitions_input [imgA, imgB, imgC] 1).1,
    by decide, by decide,
    (clustering_partitions_input [imgA, imgB, imgC] 1).2
      ⟨imgA, [imgB]⟩ (by decide) imgB (by decide)⟩

/-- C7: at duplicate threshold 0, two images accounted for by the result
of `find_uniques` lie in the same group exactly when their hash values are
bit-identical. -/
theorem clustering_zero_threshold_iff (images : List Image)
    (u v : UniqueImage) (x y : Image)
    (hu : u ∈ find_uniques images 0) (hv : v ∈ find_uniques images 0)
    (hx : x ∈ u.allImages) (hy : y ∈ v.allImages) :
    x.hash = y.hash ↔ u = v := by
  constructor
  · intro hxy
    have hxu := find_uniques_zero_homog images u hu x hx
    have hyv := find_uniques_zero_homog images v hv y hy
    have hrep : u.img.hash = v.img.hash := by rw [← hxu, ← hyv, hxy]
    exact List.inj_on_of_nodup_map (find_uniques_zero_rep_nodup images)
      hu hv hrep
  · rintro rfl
    have hxu := find_uniques_zero_homog images u hu x hx
    have hyu := find_uniques_zero_homog images u hu y hy
    rw [hxu, hyu]

/-- Witness for C7 at a concrete run: clustering `[imgA, imgA2, imgB]` at
threshold 0 puts the bit-identical `imgA` and `imgA2` in the same group. -/
theorem clustering_zero_threshold_iff_witness :
    ((⟨imgA, [imgA2]⟩ : UniqueImage) ∈ find_uniques [imgA, imgA2, imgB] 0 ∧
      imgA ∈ (⟨imgA, [imgA2]⟩ : UniqueImage).allImages ∧
      imgA2 ∈ (⟨imgA, [imgA2]⟩ : UniqueImage).allImages) ∧
    (imgA.hash = imgA2.hash ↔
      (⟨imgA, [imgA2]⟩ : UniqueImage) = (⟨imgA, [imgA2]⟩ : UniqueImage)) :=
  ⟨⟨by decide, by decide, by decide⟩,
    clustering_zero_threshold_iff [imgA, imgA2, imgB] ⟨imgA, [imgA2]⟩
      ⟨imgA, [imgA2]⟩ imgA imgA2 (by decide) (by decide) (by decide) (by decide)⟩

/-- C4 counterexample: with `imgA`, `imgB`, `imgC` and threshold 1 the
claim's premises hold — distance(A,B) ≤ 1, distance(B,C) ≤ 1,
distance(A,C) > 1 — yet clustering in order [A,B,C] does **not** yield a
single group: C is beyond threshold of A's representative, so it opens a
second group. -/
theorem clustering_chain_two_groups :
    hammingDist imgA.hash imgB.hash ≤ 1 ∧
    hammingDist imgB.hash imgC.hash ≤ 1 ∧
    ¬ hammingDist imgA.hash imgC.hash ≤ 1 ∧
    (find_uniques [imgA, imgB, imgC] 1).length ≠ 1 := by decide

/-- C4 (amended): for images A, B, C with distance(A,B) ≤ T,
distance(B,C) ≤ T and distance(A,C) > T, processing order [A,B,C] yields
two groups — one anchored at A containing B, and a singleton anchored at C
— and processing order [C,B,A] yields two groups — one anchored at C
containing B, and a singleton anchored at A. -/
theorem clustering_order_sensitivity (t : Nat) (A B C : Image)
    (hAB : hammingDist A.hash B.hash ≤ t)
    (hBC : hammingDist B.hash C.hash ≤ t)
    (hAC : ¬ hammingDist A.hash C.hash ≤ t) :
    find_uniques [A, B, C] t = [⟨A, [B]⟩, ⟨C, []⟩] ∧
    find_uniques [C, B, A] t = [⟨C, [B]⟩, ⟨A, []⟩] := by
  have hBA : hammingDist B.hash A.hash ≤ t := by
    rwa [hammingDist_comm] at hAB
  have hCA : ¬ hammingDist C.hash A.hash ≤ t := by
    rwa [hammingDist_comm] at hAC
  constructor
  · have e1 : find_uniques [A, B, C] t =
        ((((ImageManager.new t).add A).add B).add C).into_vec := rfl
    have s1 : (ImageManager.new t).add A = ⟨t, [⟨A, []⟩]⟩ := rfl
    have s2 : (⟨t, [⟨A, []⟩]⟩ : ImageManager).add B = ⟨t, [⟨A, [B]⟩]⟩ := by
      simp [ImageManager.add, addToFirst, hBA]
    have s3 : (⟨t, [⟨A, [B]⟩]⟩ : ImageManager).add C =
        ⟨t, [⟨A, [B]⟩, ⟨C, []⟩]⟩ := by
      simp [ImageManager.add, addToFirst, hCA]
    rw [e1, s1, s2, s3]
    rfl
  · have e1 : find_uniques [C, B, A] t =
        ((((ImageManager.new t).add C).add B).add A).into_vec := rfl
    have s1 : (ImageManager.new t).add C = ⟨t, [⟨C, []⟩]⟩ := rfl
    have s2 : (⟨t, [⟨C, []⟩]⟩ : ImageManager).add B = ⟨t, [⟨C, [B]⟩]⟩ := by
      simp [ImageManager.add, addToFirst, hBC]
    have s3 : (⟨t, [⟨C, [B]⟩]⟩ : ImageManager).add A =
        ⟨t, [⟨C, [B]⟩, ⟨A, []⟩]⟩ := by
      simp [ImageManager.add, addToFirst, hAC]
    rw [e1, s1, s2, s3]
    rfl

/-- Witness for the amended C4 at the concrete images: both processing
orders produce the stated two groups. -/
theorem clustering_order_sensitivity_witness :
    (hammingDist imgA.hash imgB.hash ≤ 1 ∧
      hammingDist imgB.hash imgC.hash ≤ 1 ∧
      ¬ hammingDist imgA.hash imgC.hash ≤ 1) ∧
    (find_uniques [imgA, imgB, imgC] 1 = [⟨imgA, [imgB]⟩, ⟨imgC, []⟩] ∧
      find_uniques [imgC, imgB, imgA] 1 = [⟨imgC, [imgB]⟩, ⟨imgA, []⟩]) :=
  ⟨⟨by decide, by decide, by decide⟩,
    clustering_order_sensitivity 1 imgA imgB imgC
      (by decide) (by decide) (by decide)⟩

/-! ## The threaded pipeline reproduces the local pipeline -/

theorem chunksOfAux_flatten :
    ∀ (c fuel : Nat) (l : List α), l.length ≤ fuel →
      (chunksOfAux c fuel l).flatten = l
  | _, fuel, [], _ => by cases fuel <;> simp [chunksOfAux]
  | _, 0, x :: xs, h => by simp at h
  | c, fuel + 1, x :: xs, h => by
    simp only [chunksOfAux, List.flatten_cons]
    have hlen : (xs.drop (c - 1)).length ≤ fuel := by
      simp only [List.length_drop]
      simp only [List.length_cons] at h
      omega
    rw [chunksOfAux_flatten c fuel (xs.drop (c - 1)) hlen]
    simp [List.take_append_drop]

theorem chunksOf_flatten (c : Nat) (l : List α) : (chunksOf c l).flatten = l :=
  chunksOfAux_flatten c l.length l (Nat.le_refl _)

theorem filterMap_congr_mem :
    ∀ (l : List γ) (f g : γ → Option β), (∀ x ∈ l, f x = g x) →
      l.filterMap f = l.filterMap g
  | [], _, _, _ => rfl
  | x :: xs, f, g, h => by
    have hx := h x (List.mem_cons_self x xs)
    have ih := filterMap_congr_mem xs f g (fun y hy => h y (List.mem_cons_of_mem x hy))
    cases hfx : f x with
    | none => simp [List.filterMap_cons, hfx, ← hx, ih]
    | some b => simp [List.filterMap_cons, hfx, ← hx, ih]

/-- The collector reconstructs exactly the in-order map of `f` over the
inputs when the delivered units are the index-tagged results, wherever the
numbering starts. -/
theorem collect_enumFrom (f : α → β) :
    ∀ (l : List α) (s : Nat),
      (List.range' s l.length).filterMap
        (fun i =>
          (((l.enumFrom s).map (fun p => (p.1, f p.2))).find?
            (fun e => e.1 == i)).map Prod.snd) = l.map f
  | [], s => by simp
  | a :: l, s => by
    simp only [List.length_cons, List.range'_succ, List.enumFrom_cons,
      List.map_cons, List.filterMap_cons]
    have hhead : ((((s, f a) :: (l.enumFrom (s + 1)).map (fun p => (p.1, f p.2))).find?
        (fun e => e.1 == s)).map Prod.snd) = some (f a) := by
      simp [List.find?_cons]
    rw [hhead]
    have htail : (List.range' (s + 1) l.length).filterMap
        (fun i =>
          ((((s, f a) :: (l.enumFrom (s + 1)).map (fun p => (p.1, f p.2))).find?
            (fun e => e.1 == i)).map Prod.snd)) = l.map f := by
      rw [filterMap_congr_mem (List.range' (s + 1) l.length) _
        (fun i =>
          (((l.enumFrom (s + 1)).map (fun p => (p.1, f p.2))).find?
            (fun e => e.1 == i)).map Prod.snd) ?_]
      · exact collect_enumFrom f l (s + 1)
      · intro i hi
        have hbound : s + 1 ≤ i := (List.mem_range'_1.mp hi).1
        have hne : (s == i) = false := by
          rw [beq_eq_false_iff_ne]
          omega
        rw [List.find?_cons_of_neg]
        simp [hne]
    rw [htail]

/-- The threaded session produces exactly the local pipeline's ResultSet,
for every chunking width: the chunks flatten back to the tagged input and
the collector rebuilds input order by index. -/
theorem threadedRun_eq_local (hf : HashFn) (s : HashSettings)
    (images : List String) (k : Nat) :
    threadedRun hf k s images =
      ImgResults.from_statuses
        (images.map (fun p => ImgStatus.hash hf s (ImgStatus.Unhashed p))) := by
  show ImgResults.from_statuses
      (collectByIndex images.length
        (((chunksOf (chunkSize images.length k) images.enum).map
          (List.map (workUnit hf s))).flatten)) = _
  have hdeliv :
      ((chunksOf (chunkSize images.length k) images.enum).map
        (List.map (workUnit hf s))).flatten =
      images.enum.map (workUnit hf s) := by
    rw [← List.map_flatten, chunksOf_flatten]
  rw [hdeliv]
  unfold collectByIndex
  rw [List.range_eq_range', List.enum_eq_enumFrom]
  have hwork : (images.enumFrom 0).map (workUnit hf s) =
      (images.enumFrom 0).map
        (fun p => (p.1, ImgStatus.hash hf s (ImgStatus.Unhashed p.2))) := rfl
  rw [hwork, collect_enumFrom (fun p => ImgStatus.hash hf s (ImgStatus.Unhashed p)) images 0]

/-- C1: the multi-threaded entry point produces the same ResultSet as the
single-threaded entry point, value for value, for every explicit thread
count (in particular 1, 2 and 8) and for the auto-detected count — the
ResultSet does not depend on the degree of parallelism. -/
theorem multithread_matches_local (hf : HashFn) (b : SessionBuilder)
    (k ncpus : Nat) (hk : k ≠ 0) :
    b.process_multithread hf (some k) ncpus = Except.ok (b.process_local hf) ∧
    (ncpus ≠ 0 →
      b.process_multithread hf none ncpus = Except.ok (b.process_local hf)) := by
  have hlocal : b.process_local hf =
      ImgResults.from_statuses
        (b.images.map (fun p =>
          ImgStatus.hash hf ⟨b.hash_size, b.hash_type⟩ (ImgStatus.Unhashed p))) := by
    rw [← process_local_statuses]
    rfl
  constructor
  · cases k with
    | zero => exact absurd rfl hk
    | succ j =>
      simp only [SessionBuilder.process_multithread, SessionBuilder.recombine,
        resolveThreads, hlocal, Except.ok.injEq]
      exact threadedRun_eq_local hf ⟨b.hash_size, b.hash_type⟩ b.images (j + 1)
  · intro hn
    simp only [SessionBuilder.process_multithread, SessionBuilder.recombine,
      resolveThreads, if_neg hn, hlocal, Except.ok.injEq]
    exact threadedRun_eq_local hf ⟨b.hash_size, b.hash_type⟩ b.images ncpus

/-- Witness for C1 at a concrete session: two worker threads (with four
detected CPUs) give exactly the local ResultSet. -/
theorem multithread_matches_local_witness :
    (2 ≠ 0) ∧
      (SessionBuilder.from_images ["a.png", "bad.jpg", "ok.png"]).process_multithread
          sampleHashFn (some 2) 4 =
        Except.ok
          ((SessionBuilder.from_images ["a.png", "bad.jpg", "ok.png"]).process_local
            sampleHashFn) :=
  ⟨by decide,
    (multithread_matches_local sampleHashFn
      (SessionBuilder.from_images ["a.png", "bad.jpg", "ok.png"]) 2 4 (by decide)).1⟩

end ImgDup
